import Mathlib

/-!
Shallow embedding of the input-handling core of `src/console.rs`:
the shlex tokenizer (as used by `console_ui` via `Shlex::new(..).collect()`),
the console state (`ConsoleState`), configuration (`ConsoleConfiguration`),
and the Enter / Tab / ArrowUp / ArrowDown handlers of `console_ui`.

Machine strings are modelled as Lean `String` (`StyledStr` round-trips a plain
string through `into()` / `to_string()`, so history and scrollback entries are
plain strings).  Rust operations that can panic (`Vec` indexing out of bounds,
`Option::unwrap`, `VecDeque::insert` past the end) are modelled by `Option`:
a `none` result of a step function models a process abort.
-/

namespace BevyConsole

/-- Whitespace characters recognised by the shlex crate's word splitter
(space, tab, newline — exactly the bytes matched in its `parse_word`). -/
def isShWs (c : Char) : Bool := c = ' ' ∨ c = '\t' ∨ c = '\n'

/-- Embedding of shlex `parse_single`: consume characters until a closing
single quote; `none` models `Err(())` (unterminated quote, end of input).
Returns the quoted content and the remaining input. -/
def parseSingleQ : List Char → Option (List Char × List Char)
  | [] => none
  | c :: rest =>
    if c = '\'' then some ([], rest)
    else
      match parseSingleQ rest with
      | none => none
      | some (w, r) => some (c :: w, r)

/-- Embedding of shlex `parse_double`: consume characters until a closing
double quote, handling backslash escapes exactly as the crate does
(`\$ \` \" \\` unescape; `\<newline>` vanishes; any other `\x` stays as
the two characters).  `none` models `Err(())` (unterminated quote). -/
def parseDoubleQ : List Char → Option (List Char × List Char)
  | [] => none
  | c :: rest =>
    if c = '"' then some ([], rest)
    else if c = '\\' then
      match rest with
      | [] => none
      | c2 :: r2 =>
        if c2 = '$' ∨ c2 = Char.ofNat 96 ∨ c2 = '"' ∨ c2 = '\\' then
          match parseDoubleQ r2 with
          | none => none
          | some (w, r) => some (c2 :: w, r)
        else if c2 = '\n' then parseDoubleQ r2
        else
          match parseDoubleQ r2 with
          | none => none
          | some (w, r) => some ('\\' :: c2 :: w, r)
    else
      match parseDoubleQ rest with
      | none => none
      | some (w, r) => some (c :: w, r)

theorem parseSingleQ_length_le :
    ∀ l w r, parseSingleQ l = some (w, r) → r.length ≤ l.length := by
  intro l
  induction l with
  | nil => intro w r h; simp [parseSingleQ] at h
  | cons c rest ih =>
    intro w r h
    rw [parseSingleQ] at h
    by_cases hc : c = '\''
    · rw [if_pos hc] at h
      simp only [Option.some.injEq, Prod.mk.injEq] at h
      obtain ⟨h1, h2⟩ := h
      subst h2
      simp
    · rw [if_neg hc] at h
      rcases h' : parseSingleQ rest with _ | ⟨w', r'⟩ <;> rw [h'] at h
      · exact absurd h (by simp)
      · simp only [Option.some.injEq, Prod.mk.injEq] at h
        obtain ⟨h1, h2⟩ := h
        subst h2
        have := ih w' r' h'
        simp
        omega

theorem parseDoubleQ_length_le_aux :
    ∀ (n : Nat) (l : List Char), l.length ≤ n →
      ∀ w r, parseDoubleQ l = some (w, r) → r.length ≤ l.length := by
  intro n
  induction n with
  | zero =>
    intro l hl w r h
    match l with
    | [] => simp [parseDoubleQ] at h
    | c :: rest => simp at hl
  | succ n ih =>
    intro l hl w r h
    match l with
    | [] => simp [parseDoubleQ] at h
    | [c] =>
      rw [parseDoubleQ] at h
      by_cases hq : c = '"'
      · rw [if_pos hq] at h
        simp only [Option.some.injEq, Prod.mk.injEq] at h
        obtain ⟨h1, h2⟩ := h
        subst h2
        simp
      · rw [if_neg hq] at h
        by_cases hb : c = '\\'
        · rw [if_pos hb] at h
          exact absurd h (by simp)
        · rw [if_neg hb] at h
          simp [parseDoubleQ] at h
    | c :: c2 :: r2 =>
      rw [parseDoubleQ] at h
      simp only [List.length_cons] at hl
      have hr2 : r2.length ≤ n := by omega
      have hc2r2 : (c2 :: r2).length ≤ n := by simp; omega
      by_cases hq : c = '"'
      · rw [if_pos hq] at h
        simp only [Option.some.injEq, Prod.mk.injEq] at h
        obtain ⟨h1, h2⟩ := h
        subst h2
        simp
      · rw [if_neg hq] at h
        by_cases hb : c = '\\'
        · rw [if_pos hb] at h
          by_cases he : c2 = '$' ∨ c2 = Char.ofNat 96 ∨ c2 = '"' ∨ c2 = '\\'
          · rw [if_pos he] at h
            rcases h' : parseDoubleQ r2 with _ | ⟨w', r'⟩ <;> rw [h'] at h
            · exact absurd h (by simp)
            · simp only [Option.some.injEq, Prod.mk.injEq] at h
              obtain ⟨h1, h2⟩ := h
              subst h2
              have := ih r2 hr2 w' r' h'
              simp
              omega
          · rw [if_neg he] at h
            by_cases hnl : c2 = '\n'
            · rw [if_pos hnl] at h
              have := ih r2 hr2 w r h
              simp
              omega
            · rw [if_neg hnl] at h
              rcases h' : parseDoubleQ r2 with _ | ⟨w', r'⟩ <;> rw [h'] at h
              · exact absurd h (by simp)
              · simp only [Option.some.injEq, Prod.mk.injEq] at h
                obtain ⟨h1, h2⟩ := h
                subst h2
                have := ih r2 hr2 w' r' h'
                simp
                omega
        · rw [if_neg hb] at h
          rcases h' : parseDoubleQ (c2 :: r2) with _ | ⟨w', r'⟩ <;> rw [h'] at h
          · exact absurd h (by simp)
          · simp only [Option.some.injEq, Prod.mk.injEq] at h
            obtain ⟨h1, h2⟩ := h
            subst h2
            have := ih (c2 :: r2) hc2r2 w' r' h'
            simp at this ⊢
            omega

theorem parseDoubleQ_length_le (l : List Char) (w r : List Char)
    (h : parseDoubleQ l = some (w, r)) : r.length ≤ l.length :=
  parseDoubleQ_length_le_aux l.length l (Nat.le_refl _) w r h

/-- Embedding of shlex `parse_word`: processes the current word character by
character, entering single- or double-quote mode, handling unquoted backslash
escapes, and stopping at unquoted whitespace (consumed) or end of input.
`acc` is the word accumulated so far, in reverse.  `none` models the error
paths that set `had_error` and make the iterator yield `None`. -/
def parseWord : List Char → List Char → Option (List Char × List Char)
  | [], acc => some (acc.reverse, [])
  | c :: rest, acc =>
    if c = '"' then
      match hq : parseDoubleQ rest with
      | none => none
      | some (w, r) => parseWord r (w.reverse ++ acc)
    else if c = '\'' then
      match hq : parseSingleQ rest with
      | none => none
      | some (w, r) => parseWord r (w.reverse ++ acc)
    else if c = '\\' then
      match rest with
      | [] => none
      | c2 :: r2 => if c2 = '\n' then parseWord r2 acc else parseWord r2 (c2 :: acc)
    else if isShWs c then some (acc.reverse, rest)
    else parseWord rest (c :: acc)
termination_by l _ => l.length
decreasing_by
  · have := parseDoubleQ_length_le rest w r hq
    simp
    omega
  · have := parseSingleQ_length_le rest w r hq
    simp
    omega
  · simp
    omega
  · simp
    omega
  · simp

theorem parseWord_length_spec_aux :
    ∀ (n : Nat) (l : List Char), l.length ≤ n → ∀ acc w r,
      parseWord l acc = some (w, r) →
      r.length ≤ l.length ∧ (l ≠ [] → r.length < l.length) := by
  intro n
  induction n with
  | zero =>
    intro l hl acc w r h
    match l with
    | [] =>
      rw [parseWord] at h
      simp only [Option.some.injEq, Prod.mk.injEq] at h
      obtain ⟨h1, h2⟩ := h
      subst h2
      exact ⟨by simp, fun hne => absurd rfl hne⟩
    | c :: rest => simp at hl
  | succ n ih =>
    intro l hl acc w r h
    match l with
    | [] =>
      rw [parseWord] at h
      simp only [Option.some.injEq, Prod.mk.injEq] at h
      obtain ⟨h1, h2⟩ := h
      subst h2
      exact ⟨by simp, fun hne => absurd rfl hne⟩
    | [c] =>
      rw [parseWord] at h
      split at h
      · split at h
        · exact absurd h (by simp)
        · next w1 r1 heq => simp [parseDoubleQ] at heq
      · split at h
        · split at h
          · exact absurd h (by simp)
          · next w1 r1 heq => simp [parseSingleQ] at heq
        · split at h
          · exact absurd h (by simp)
          · split at h
            · simp only [Option.some.injEq, Prod.mk.injEq] at h
              obtain ⟨h1, h2⟩ := h
              subst h2
              exact ⟨by simp, fun _ => by simp⟩
            · rw [parseWord] at h
              simp only [Option.some.injEq, Prod.mk.injEq] at h
              obtain ⟨h1, h2⟩ := h
              subst h2
              exact ⟨by simp, fun _ => by simp⟩
    | c :: c2 :: r2 =>
      rw [parseWord] at h
      simp only [List.length_cons] at hl
      split at h
      · split at h
        · exact absurd h (by simp)
        · next w1 r1 heq =>
            have hb := parseDoubleQ_length_le _ _ _ heq
            simp only [List.length_cons] at hb
            have hr1 : r1.length ≤ n := by omega
            have := (ih r1 hr1 _ w r h).1
            exact ⟨by simp; omega, fun _ => by simp; omega⟩
      · split at h
        · split at h
          · exact absurd h (by simp)
          · next w1 r1 heq =>
              have hb := parseSingleQ_length_le _ _ _ heq
              simp only [List.length_cons] at hb
              have hr1 : r1.length ≤ n := by omega
              have := (ih r1 hr1 _ w r h).1
              exact ⟨by simp; omega, fun _ => by simp; omega⟩
        · split at h
          · split at h
            · have := (ih r2 (by omega) _ w r h).1
              exact ⟨by simp; omega, fun _ => by simp; omega⟩
            · have := (ih r2 (by omega) _ w r h).1
              exact ⟨by simp; omega, fun _ => by simp; omega⟩
          · split at h
            · simp only [Option.some.injEq, Prod.mk.injEq] at h
              obtain ⟨h1, h2⟩ := h
              subst h2
              exact ⟨by simp, fun _ => by simp⟩
            · have := (ih (c2 :: r2) (by simp; omega) _ w r h).1
              simp only [List.length_cons] at this
              exact ⟨by simp; omega, fun _ => by simp; omega⟩

theorem parseWord_length_lt (c : Char) (rest acc w r : List Char)
    (h : parseWord (c :: rest) acc = some (w, r)) :
    r.length < (c :: rest).length :=
  (parseWord_length_spec_aux (c :: rest).length _ (Nat.le_refl _) acc w r h).2 (by simp)

/-- Embedding of the whitespace-and-comment skipping loop at the top of the
shlex iterator's `next`: skip whitespace; on `#` discard characters up to and
including the next newline; return the first character of the next word and
the remaining input, or `none` when the input is exhausted. -/
def skipWsComments : List Char → Option (Char × List Char)
  | [] => none
  | c :: rest =>
    if isShWs c then skipWsComments rest
    else if c = '#' then
      match hd : rest.dropWhile (fun x => x != '\n') with
      | [] => none
      | _ :: r => skipWsComments r
    else some (c, rest)
termination_by l => l.length
decreasing_by
  · simp
  · have h1 : (rest.dropWhile (fun x => x != '\n')).length ≤ rest.length :=
      (List.dropWhile_sublist _).length_le
    rw [hd] at h1
    simp at h1 ⊢
    omega

theorem skipWsComments_length_lt :
    ∀ (n : Nat) (l : List Char), l.length ≤ n → ∀ c rest,
      skipWsComments l = some (c, rest) → rest.length < l.length := by
  intro n
  induction n with
  | zero =>
    intro l hl c rest h
    match l with
    | [] => simp [skipWsComments] at h
    | x :: xs => simp at hl
  | succ n ih =>
    intro l hl c rest h
    match l with
    | [] => simp [skipWsComments] at h
    | x :: xs =>
      rw [skipWsComments] at h
      simp only [List.length_cons] at hl
      split at h
      · have := ih xs (by omega) c rest h
        simp
        omega
      · split at h
        · split at h
          · exact absurd h (by simp)
          · next y ys hdw =>
              have h1 : (xs.dropWhile (fun z => z != '\n')).length ≤ xs.length :=
                (List.dropWhile_sublist _).length_le
              rw [hdw] at h1
              simp only [List.length_cons] at h1
              have := ih ys (by omega) c rest h
              simp
              omega
        · simp only [Option.some.injEq, Prod.mk.injEq] at h
          obtain ⟨h1, h2⟩ := h
          subst h2
          simp

/-- Embedding of `Shlex::new(line).collect::<Vec<_>>()` together with the
iterator's `had_error` flag: the token list collected before the iterator
first yields `None`, and whether that `None` came from an error path
(unterminated quote or trailing backslash).  `console_ui` only uses the token
list and never reads the flag, exactly as modelled by `shlexTokens` below. -/
def shlexRun : List Char → List String × Bool
  | input =>
    match hs : skipWsComments input with
    | none => ([], false)
    | some (c, rest) =>
      match hw : parseWord (c :: rest) [] with
      | none => ([], true)
      | some (w, r) =>
        let p := shlexRun r
        (String.mk w :: p.1, p.2)
termination_by input => input.length
decreasing_by
  show r.length < input.length
  have h1 := skipWsComments_length_lt input.length input (Nat.le_refl _) c rest hs
  have h2 := parseWord_length_lt c rest [] w r hw
  simp only [List.length_cons] at h2
  omega

/-- The token list produced by `Shlex::new(s).collect()` in `console_ui`. -/
def shlexTokens (s : String) : List String := (shlexRun s.data).1

/-- The shlex iterator's `had_error` flag after collecting — set on malformed
quoting or a trailing backslash, and ignored by `console_ui`. -/
def shlexHadError (s : String) : Bool := (shlexRun s.data).2

unseal parseWord skipWsComments shlexRun

/-- `Iterator::position(|x| x == target)` over a vector of strings. -/
def listPosition (target : String) : List String → Option Nat
  | [] => none
  | x :: xs => if x = target then some 0 else (listPosition target xs).map (· + 1)

theorem listPosition_of_contains :
    ∀ (l : List String) (w : String), l.contains w = true →
      ∃ i, listPosition w l = some i ∧ i < l.length := by
  intro l w h
  induction l with
  | nil => simp at h
  | cons x xs ih =>
    rw [listPosition]
    by_cases hx : x = w
    · exact ⟨0, by simp [hx], by simp⟩
    · simp only [List.contains_cons] at h
      have h' : xs.contains w = true := by
        rcases Bool.or_eq_true_iff.mp h with h1 | h1
        · have hxw : w = x := by simpa using h1
          exact absurd hxw.symm hx
        · exact h1
      obtain ⟨i, hi, hlen⟩ := ih h'
      exact ⟨i + 1, by simp [if_neg hx, hi], by simp; omega⟩

/-- `str::trim(..).is_empty()`: every character of the line is whitespace
(ASCII whitespace, which covers every input the handlers compare). -/
def isBlank (s : String) : Bool := s.data.all (fun c => c.isWhitespace)

/-- Worker for `splitWs`: scan the characters, `acc` holding the current
word reversed. -/
def wordsAux : List Char → List Char → List String
  | [], acc => if acc = [] then [] else [String.mk acc.reverse]
  | c :: rest, acc =>
    if c.isWhitespace then
      if acc = [] then wordsAux rest []
      else String.mk acc.reverse :: wordsAux rest []
    else wordsAux rest (c :: acc)

/-- `str::split_whitespace` on the input line: the whitespace-separated
words, in order, with no empties. -/
def splitWs (s : String) : List String := wordsAux s.data []

/-- `str::contains(c)` for a single character pattern. -/
def strContainsChar (s : String) (c : Char) : Bool := s.data.contains c

/-- `str::ends_with(c)` for a single character pattern. -/
def strEndsWithChar (s : String) (c : Char) : Bool := s.data.getLast? = some c

/-- `str::starts_with(prefix_str)` on the underlying characters, used to
model which stored words a predictive trie search returns. -/
def strIsPrefixOf (p s : String) : Bool := List.isPrefixOf p.data s.data

/-- The fold rebuilding the line from `line_words` minus its last word, each
kept word followed by one space: `filter(|(i, _)| i != &(line_words.len() -
1)).fold(String::new(), |acc, (_, x)| acc + &x + &" ")` (on an empty word
list the closure never runs, so the `usize` subtraction never evaluates and
the fold is the empty string, as with truncated subtraction here). -/
def joinInit (ws : List String) : String :=
  (ws.enum.filter (fun p => p.1 ≠ ws.length - 1)).foldl
    (fun acc p => acc ++ p.2 ++ " ") ""

/-- The same fold but filtering index `line_words.len()`, which keeps every
word: used by the fresh-argument completion branch. -/
def joinAll (ws : List String) : String :=
  (ws.enum.filter (fun p => p.1 ≠ ws.length)).foldl
    (fun acc p => acc ++ p.2 ++ " ") ""

/-- Lexicographic comparison of character lists (the order in which a
`trie_rs` trie enumerates its stored words). -/
def charListLt : List Char → List Char → Bool
  | [], [] => false
  | [], _ :: _ => true
  | _ :: _, [] => false
  | a :: as, b :: bs => if a < b then true else if b < a then false else charListLt as bs

/-- Lexicographic order on strings via their characters. -/
def strLt (a b : String) : Bool := charListLt a.data b.data

/-- Insertion sort in the lexicographic order in which a `trie_rs` trie
enumerates its stored words. -/
def insertSorted (x : String) : List String → List String
  | [] => [x]
  | y :: ys => if strLt y x then y :: insertSorted x ys else x :: y :: ys

/-- Sort a list of strings lexicographically (trie enumeration order). -/
def sortStrings : List String → List String
  | [] => []
  | x :: xs => insertSorted x (sortStrings xs)

/-- `Trie::predictive_search` over a trie built by pushing `names`: the
distinct stored words that extend `pat`, in lexicographic order.  (`trie_rs`
panics on an empty pattern; the source only reaches its calls with a
non-empty target word.) -/
def predictiveSearch (names : List String) (pat : String) : List String :=
  sortStrings ((names.filter (fun n => strIsPrefixOf pat n)).dedup)

/-- The dispatched event `ConsoleCommandEntered { command_name, args }`. -/
structure ConsoleCommandEntered where
  command_name : String
  args : List String
deriving Repr, DecidableEq

/-- The fields of `ConsoleConfiguration` read by the input-handling core.
`commands` models the key set of the `BTreeMap` of registered commands in
its ascending iteration order (`commands.keys()`); the trie built from those
keys by `build_command_trie` is modelled by `predictiveSearch commands`.
`arg_completions` models the `HashMap` as an association list with distinct
keys. -/
structure ConsoleConfiguration where
  commands : List String
  history_size : Nat
  symbol : String
  arg_completions : List (String × List String)
deriving Repr, DecidableEq

/-- `config.arg_completions.get(cmd)`. -/
def lookupArgCompletions (cfg : ConsoleConfiguration) (cmd : String) :
    Option (List String) :=
  (cfg.arg_completions.find? (fun p => p.1 = cmd)).map Prod.snd

/-- `ConsoleState`: the live edit buffer, the scrollback log, the history
deque (front = index 0, the live slot), the navigation index and the current
completion-cycle list. -/
structure ConsoleState where
  buf : String
  scrollback : List String
  history : List String
  history_index : Nat
  completions : List String
deriving Repr, DecidableEq

/-- `Default for ConsoleState`: empty buffer, empty scrollback, history
holding the single empty live slot, index 0, no completions. -/
def ConsoleState.default : ConsoleState :=
  { buf := "", scrollback := [], history := [""], history_index := 0,
    completions := [] }

/-- The Enter handler of `console_ui` (lines 436-474): blank input pushes a
blank scrollback line; otherwise echo `symbol + buf`, insert the line into
the history at position 1 and evict the back when over `history_size + 1`,
reset `history_index`, tokenize, and dispatch a `ConsoleCommandEntered`
event on a registry hit or push `error: Invalid command` on a miss, clearing
the buffer either way.  Returns the new state and the events written this
frame; `none` models the `VecDeque::insert(1, _)` panic on an empty history
(unreachable from the initial state). -/
def enterStep (cfg : ConsoleConfiguration) (s : ConsoleState) :
    Option (ConsoleState × List ConsoleCommandEntered) :=
  if isBlank s.buf then
    some ({ s with scrollback := s.scrollback ++ [""] }, [])
  else
    match s.history with
    | [] => none
    | h0 :: hrest =>
      let echo := cfg.symbol ++ s.buf
      let hist1 := h0 :: s.buf :: hrest
      let hist2 := if cfg.history_size + 1 < hist1.length then hist1.dropLast else hist1
      match shlexTokens s.buf with
      | [] =>
        some ({ s with scrollback := s.scrollback ++ [echo], history := hist2,
                       history_index := 0, buf := "" }, [])
      | command_name :: args =>
        if cfg.commands.contains command_name then
          some ({ s with scrollback := s.scrollback ++ [echo], history := hist2,
                         history_index := 0, buf := "" },
                [{ command_name := command_name, args := args }])
        else
          some ({ s with
                    scrollback := s.scrollback ++ [echo, "error: Invalid command"],
                    history := hist2, history_index := 0, buf := "" }, [])

/-- The Tab handler of `console_ui` (lines 477-541).  `none` models a panic:
`state.completions[0]` indexing an empty vector (reached with an empty
command registry and an empty target word), or the guarded `unwrap`s. -/
def tabStep (cfg : ConsoleConfiguration) (s : ConsoleState) :
    Option ConsoleState :=
  let line_words := splitWs s.buf
  let target_word := line_words.getLast?.getD ""
  let target_is_arg := strContainsChar s.buf ' '
  if s.completions.contains target_word then
    match listPosition target_word s.completions with
    | none => none
    | some i =>
      match s.completions[i + 1]? with
      | some full_word => some { s with buf := joinInit line_words ++ full_word }
      | none =>
        match s.completions[0]? with
        | none => none
        | some full_word => some { s with buf := joinInit line_words ++ full_word }
  else if target_is_arg then
    match line_words[0]? with
    | none => some s
    | some cmd =>
      match lookupArgCompletions cfg cmd with
      | none => some s
      | some arg_completions =>
        if strEndsWithChar s.buf ' ' then
          if arg_completions ≠ [] then
            match arg_completions[0]? with
            | none => none
            | some a0 =>
              some { s with completions := arg_completions,
                            buf := joinAll line_words ++ a0 }
          else some s
        else
          let comps := predictiveSearch arg_completions target_word
          if comps ≠ [] then
            match comps[0]? with
            | none => none
            | some c0 =>
              some { s with completions := comps,
                            buf := joinInit line_words ++ c0 }
          else some s
  else
    if target_word = "" then
      match cfg.commands[0]? with
      | none => none
      | some c0 => some { s with completions := cfg.commands, buf := c0 }
    else
      let comps := predictiveSearch cfg.commands target_word
      if comps ≠ [] then
        match comps[0]? with
        | none => none
        | some c0 => some { s with completions := comps, buf := c0 }
      else some s

/-- Pressing any non-Tab key (lines 542-546): the completion-cycle list is
reset so a later Tab regenerates it. -/
def resetCompletionsStep (s : ConsoleState) : ConsoleState :=
  { s with completions := [] }

/-- The ArrowUp handler of `console_ui` (lines 549-562), with the text edit
focused.  Inactive unless the history has more than one entry and
`history_index < len - 1`.  At index 0 with a non-blank buffer the buffer is
first saved into the live slot 0; then the index advances and the buffer is
set to that entry.  `none` models the `get(history_index).unwrap()` panic
(unreachable under the guard). -/
def upStep (s : ConsoleState) : Option ConsoleState :=
  if s.history.length > 1 ∧ s.history_index < s.history.length - 1 then
    let hist :=
      if s.history_index = 0 ∧ ¬isBlank s.buf then s.history.set 0 s.buf
      else s.history
    match hist[s.history_index + 1]? with
    | none => none
    | some item =>
      some { s with history := hist, history_index := s.history_index + 1,
                    buf := item }
  else some s

/-- The ArrowDown handler of `console_ui` (lines 563-572), with the text
edit focused.  Inactive unless `history_index > 0`; the index decreases and
the buffer is set to the entry at the new index (possibly the saved live
edit at slot 0).  `none` models the `get(..).unwrap()` panic (unreachable
under the guard). -/
def downStep (s : ConsoleState) : Option ConsoleState :=
  if s.history_index > 0 then
    match s.history[s.history_index - 1]? with
    | none => none
    | some item =>
      some { s with history_index := s.history_index - 1, buf := item }
  else some s

/-- C8: submitting while InputLine is blank (empty or all whitespace)
appends exactly one blank line to the scrollback and changes nothing else:
the history, the navigation index, the buffer and the completion list are
untouched, and no ConsoleCommandEntered event is emitted. -/
theorem c8_blank_submission (cfg : ConsoleConfiguration) (s : ConsoleState)
    (h : isBlank s.buf = true) :
    enterStep cfg s = some ({ s with scrollback := s.scrollback ++ [""] }, []) := by
  simp [enterStep, h]

theorem c8_blank_submission_witness :
    isBlank " \t " = true ∧
    enterStep { commands := ["log"], history_size := 20, symbol := "$ ",
                arg_completions := [] }
        { buf := " \t ", scrollback := [], history := [""], history_index := 0,
          completions := [] } =
      some ({ buf := " \t ", scrollback := [""], history := [""],
              history_index := 0, completions := [] }, []) :=
  ⟨by decide, c8_blank_submission _ _ (by decide)⟩

/-- C1: submitting a non-blank line whose first shlex token is a registered
command name emits exactly one ConsoleCommandEntered event carrying that
name and the remaining tokens in order, pushes only the echo line (no error
line) to the scrollback, and clears the input buffer. -/
theorem c1_registered_dispatch (cfg : ConsoleConfiguration) (s : ConsoleState)
    (name : String) (args : List String)
    (hhist : s.history ≠ [])
    (hnb : isBlank s.buf = false)
    (htok : shlexTokens s.buf = name :: args)
    (hreg : cfg.commands.contains name = true) :
    ∃ hist2, enterStep cfg s =
      some ({ s with scrollback := s.scrollback ++ [cfg.symbol ++ s.buf],
                     history := hist2, history_index := 0, buf := "" },
            [{ command_name := name, args := args }]) := by
  obtain ⟨h0, hrest, hh⟩ : ∃ a l, s.history = a :: l := by
    cases hc : s.history with
    | nil => exact absurd hc hhist
    | cons a l => exact ⟨a, l, rfl⟩
  refine ⟨if cfg.history_size + 1 < (h0 :: s.buf :: hrest).length then
            (h0 :: s.buf :: hrest).dropLast else h0 :: s.buf :: hrest, ?_⟩
  simp only [enterStep, hnb, hh, htok, hreg, Bool.false_eq_true, if_false, if_true]

theorem c1_registered_dispatch_witness :
    ∃ hist2,
      enterStep { commands := ["log"], history_size := 20, symbol := "$ ",
                  arg_completions := [] }
          { buf := "log hello 3", scrollback := [], history := [""],
            history_index := 0, completions := [] } =
        some ({ buf := "", scrollback := ["$ log hello 3"], history := hist2,
                history_index := 0, completions := [] },
              [{ command_name := "log", args := ["hello", "3"] }]) :=
  c1_registered_dispatch _ _ ("log") (["hello", "3"]) (by decide) (by decide)
    (by decide) (by decide)

/-- C7: submitting a line whose first shlex token has no exact match in the
command registry emits no event, appends exactly one invalid-command error
line (after the echo line) to the scrollback, and clears the input
buffer. -/
theorem c7_unknown_command (cfg : ConsoleConfiguration) (s : ConsoleState)
    (name : String) (args : List String)
    (hhist : s.history ≠ [])
    (hnb : isBlank s.buf = false)
    (htok : shlexTokens s.buf = name :: args)
    (hreg : cfg.commands.contains name = false) :
    ∃ hist2, enterStep cfg s =
      some ({ s with scrollback := s.scrollback ++
                       [cfg.symbol ++ s.buf, "error: Invalid command"],
                     history := hist2, history_index := 0, buf := "" }, []) := by
  obtain ⟨h0, hrest, hh⟩ : ∃ a l, s.history = a :: l := by
    cases hc : s.history with
    | nil => exact absurd hc hhist
    | cons a l => exact ⟨a, l, rfl⟩
  refine ⟨if cfg.history_size + 1 < (h0 :: s.buf :: hrest).length then
            (h0 :: s.buf :: hrest).dropLast else h0 :: s.buf :: hrest, ?_⟩
  simp only [enterStep, hnb, hh, htok, hreg, Bool.false_eq_true, if_false, if_true]

theorem c7_unknown_command_witness :
    ∃ hist2,
      enterStep { commands := ["log"], history_size := 20, symbol := "$ ",
                  arg_completions := [] }
          { buf := "foo", scrollback := [], history := [""],
            history_index := 0, completions := [] } =
        some ({ buf := "", scrollback := ["$ foo", "error: Invalid command"],
                history := hist2, history_index := 0, completions := [] }, []) :=
  c7_unknown_command _ _ ("foo") ([]) (by decide) (by decide) (by decide)
    (by decide)

/-- C2 counterexample: the line `foo "bar` has an unterminated double quote,
so the shlex iterator stops with its error flag set; yet `console_ui`
ignores the flag, dispatches a ConsoleCommandEntered event built from the
tokens collected before the error (here `foo` with no arguments, which is
registered), and pushes no error line — only the echo — contradicting the
claim that malformed quoting is reported in the scrollback and never
dispatched. -/
theorem c2_counterexample :
    shlexHadError "foo \"bar" = true ∧
    enterStep { commands := ["foo"], history_size := 20, symbol := "$ ",
                arg_completions := [] }
        { buf := "foo \"bar", scrollback := [], history := [""],
          history_index := 0, completions := [] } =
      some ({ buf := "", scrollback := ["$ foo \"bar"],
              history := ["", "foo \"bar"], history_index := 0,
              completions := [] },
            [{ command_name := "foo", args := [] }]) := by
  constructor
  · decide
  · decide

/-- C2 amended: on a submitted line with malformed quoting the tokenizer
yields best-effort tokens (those collected before the error) and the engine
neither records an error line for the tokenize failure nor suppresses
dispatch: when the collected tokens start with a registered command name,
exactly one ConsoleCommandEntered event is still emitted and the scrollback
gains only the echo line. -/
theorem c2_malformed_still_dispatches (cfg : ConsoleConfiguration)
    (s : ConsoleState) (name : String) (args : List String)
    (hhist : s.history ≠ [])
    (hnb : isBlank s.buf = false)
    (herr : shlexHadError s.buf = true)
    (htok : shlexTokens s.buf = name :: args)
    (hreg : cfg.commands.contains name = true) :
    ∃ hist2, enterStep cfg s =
      some ({ s with scrollback := s.scrollback ++ [cfg.symbol ++ s.buf],
                     history := hist2, history_index := 0, buf := "" },
            [{ command_name := name, args := args }]) := by
  obtain ⟨h0, hrest, hh⟩ : ∃ a l, s.history = a :: l := by
    cases hc : s.history with
    | nil => exact absurd hc hhist
    | cons a l => exact ⟨a, l, rfl⟩
  refine ⟨if cfg.history_size + 1 < (h0 :: s.buf :: hrest).length then
            (h0 :: s.buf :: hrest).dropLast else h0 :: s.buf :: hrest, ?_⟩
  simp only [enterStep, hnb, hh, htok, hreg, Bool.false_eq_true, if_false, if_true]

theorem c2_malformed_still_dispatches_witness :
    ∃ hist2,
      enterStep { commands := ["foo"], history_size := 20, symbol := "$ ",
                  arg_completions := [] }
          { buf := "foo \"bar", scrollback := [], history := [""],
            history_index := 0, completions := [] } =
        some ({ buf := "", scrollback := ["$ foo \"bar"], history := hist2,
                history_index := 0, completions := [] },
              [{ command_name := "foo", args := [] }]) :=
  c2_malformed_still_dispatches _ _ ("foo") ([]) (by decide) (by decide)
    (by decide) (by decide) (by decide)

/-- C3 counterexample: first conjunct — with an empty command registry and an
empty InputLine, the Tab handler sets the candidate list to the (empty) key
set and then indexes `state.completions[0]`, which panics: `tabStep`
returns `none` (a process abort), contradicting the claim that the operation
never aborts even when the registry contains no commands.  Second conjunct —
with a registered command and an InputLine of a single space (all
whitespace), the buffer contains a space so the handler takes the
argument-completion branch and returns with no change at all: the candidate
list is not set to the registered command names and the buffer does not
become the first registered name. -/
theorem c3_counterexample :
    tabStep { commands := [], history_size := 20, symbol := "$ ",
              arg_completions := [] }
        { buf := "", scrollback := [], history := [""], history_index := 0,
          completions := [] } = none ∧
    tabStep { commands := ["log"], history_size := 20, symbol := "$ ",
              arg_completions := [] }
        { buf := " ", scrollback := [], history := [""], history_index := 0,
          completions := [] } =
      some { buf := " ", scrollback := [], history := [""], history_index := 0,
             completions := [] } := by
  constructor
  · decide
  · decide

/-- C3 amended: pressing Tab when the buffer contains no space character,
splits into no words (it is empty or consists of non-space whitespace), and
no completion cycle matches the empty target, sets the candidate list to the
full registered command name list (in registry order) and the buffer to the
first registered name — provided the registry is non-empty.  With an empty
registry the same branch indexes an empty vector and panics, and with an
all-whitespace buffer containing a space the handler is a no-op instead. -/
theorem c3_empty_target_completion (cfg : ConsoleConfiguration)
    (s : ConsoleState) (c0 : String) (cs : List String)
    (hcmds : cfg.commands = c0 :: cs)
    (hwords : splitWs s.buf = [])
    (hnospace : strContainsChar s.buf ' ' = false)
    (hnocycle : s.completions.contains "" = false) :
    tabStep cfg s = some { s with completions := cfg.commands, buf := c0 } := by
  have hnc : ¬("" ∈ s.completions) := by simpa using hnocycle
  simp [tabStep, hwords, hnospace, hnc, hcmds]

theorem c3_empty_target_completion_witness :
    tabStep { commands := ["list", "load", "log"], history_size := 20,
              symbol := "$ ", arg_completions := [] }
        { buf := "", scrollback := [], history := [""], history_index := 0,
          completions := [] } =
      some { buf := "list", scrollback := [], history := [""],
             history_index := 0, completions := ["list", "load", "log"] } :=
  c3_empty_target_completion _ _ ("list") (["load", "log"]) (by decide)
    (by decide) (by decide) (by decide)

/-- The entry after the first occurrence of `w` in the cycle list, wrapping
from the last entry back to the first: the claim's notion of the next
candidate when cycling. -/
def nextWrap (l : List String) (w : String) : String :=
  match listPosition w l with
  | none => ""
  | some i => (l[(i + 1) % l.length]?).getD ""

/-- C6: when the last whitespace-separated word of the buffer exactly equals
an entry of the (necessarily non-empty) completion-cycle list, Tab rebuilds
the line with that last word replaced by the next entry of the list —
wrapping from the last entry back to the first — and leaves the candidate
list untouched (no re-derivation), so repeated presses step
deterministically through all candidates. -/
theorem c6_cycle_continuation (cfg : ConsoleConfiguration) (s : ConsoleState)
    (hwords : splitWs s.buf ≠ [])
    (hmem : s.completions.contains ((splitWs s.buf).getLast?.getD "") = true) :
    tabStep cfg s =
      some { s with
               buf := joinInit (splitWs s.buf) ++
                      nextWrap s.completions ((splitWs s.buf).getLast?.getD "") } := by
  obtain ⟨i, hi, hlen⟩ := listPosition_of_contains _ _ hmem
  have hmem' : (splitWs s.buf).getLast?.getD "" ∈ s.completions := by
    simpa using hmem
  rcases hnx : s.completions[i + 1]? with _ | fw
  · have hge : s.completions.length ≤ i + 1 := by
      by_contra hlt
      push_neg at hlt
      rw [List.getElem?_eq_getElem hlt] at hnx
      exact absurd hnx (by simp)
    have hieq : i + 1 = s.completions.length := by omega
    have hlen0 : 0 < s.completions.length := by omega
    have h0 : s.completions[0]? = some (s.completions.get ⟨0, hlen0⟩) :=
      List.getElem?_eq_getElem hlen0
    have hnw : nextWrap s.completions ((splitWs s.buf).getLast?.getD "") =
        s.completions.get ⟨0, hlen0⟩ := by
      rw [nextWrap, hi]
      simp only [hieq, Nat.mod_self, h0, Option.getD_some]
    rw [hnw]
    simp [tabStep, hmem', hi, hnx, h0]
  · have hlt : i + 1 < s.completions.length := by
      by_contra hge
      push_neg at hge
      rw [List.getElem?_eq_none hge] at hnx
      exact absurd hnx (by simp)
    have hnw : nextWrap s.completions ((splitWs s.buf).getLast?.getD "") = fw := by
      rw [nextWrap, hi]
      simp only [Nat.mod_eq_of_lt hlt, hnx, Option.getD_some]
    rw [hnw]
    simp [tabStep, hmem', hi, hnx]

theorem c6_cycle_continuation_witness :
    tabStep { commands := ["list", "load", "log"], history_size := 20,
              symbol := "$ ", arg_completions := [] }
        { buf := "log", scrollback := [], history := [""], history_index := 0,
          completions := ["load", "log"] } =
      some { buf := joinInit (splitWs "log") ++ nextWrap ["load", "log"]
                      ((splitWs "log").getLast?.getD ""),
             scrollback := [], history := [""], history_index := 0,
             completions := ["load", "log"] } :=
  c6_cycle_continuation _ _ (by decide) (by decide)

/-- C5: with a non-blank buffer, navigation index 0 and more than one
history entry, pressing ArrowUp and then ArrowDown restores the buffer to
exactly its pre-navigation content: Up first saves the unsaved edit into
history slot 0 and Down at index 1 returns to it. -/
theorem c5_up_down_restores_edit (s : ConsoleState)
    (hlen : s.history.length > 1)
    (hidx : s.history_index = 0)
    (hnb : isBlank s.buf = false) :
    ∃ s1 s2, upStep s = some s1 ∧ downStep s1 = some s2 ∧ s2.buf = s.buf := by
  obtain ⟨a, b, t, hh⟩ : ∃ a b t, s.history = a :: b :: t := by
    rcases hl : s.history with _ | ⟨a, _ | ⟨b, t⟩⟩
    · rw [hl] at hlen
      simp at hlen
    · rw [hl] at hlen
      simp at hlen
    · exact ⟨a, b, t, rfl⟩
  refine ⟨{ s with history := s.buf :: b :: t, history_index := 1, buf := b },
          { s with history := s.buf :: b :: t, history_index := 0, buf := s.buf },
          ?_, ?_, rfl⟩
  · rw [upStep]
    rw [if_pos (by rw [hh, hidx]; simp)]
    simp [hh, hidx, hnb]
  · rw [downStep]
    simp

theorem c5_up_down_restores_edit_witness :
    ∃ s1 s2,
      upStep { buf := "partia", scrollback := [], history := ["", "cmd1"],
               history_index := 0, completions := [] } = some s1 ∧
      downStep s1 = some s2 ∧
      s2.buf = "partia" :=
  c5_up_down_restores_edit _ (by decide) (by decide) (by decide)

theorem enterStep_nonblank_shape (cfg : ConsoleConfiguration) (s : ConsoleState)
    (h0 : String) (hrest : List String) (hh : s.history = h0 :: hrest)
    (hnb : isBlank s.buf = false) :
    ∃ sb evs, enterStep cfg s =
      some ({ s with scrollback := sb,
                     history :=
                       if cfg.history_size + 1 < (h0 :: s.buf :: hrest).length
                       then (h0 :: s.buf :: hrest).dropLast
                       else h0 :: s.buf :: hrest,
                     history_index := 0, buf := "" }, evs) := by
  rcases ht : shlexTokens s.buf with _ | ⟨name, args⟩
  · exact ⟨s.scrollback ++ [cfg.symbol ++ s.buf], [],
      by simp [enterStep, hnb, hh, ht]⟩
  · cases hr : cfg.commands.contains name with
    | true =>
      have hm : name ∈ cfg.commands := by simpa using hr
      exact ⟨s.scrollback ++ [cfg.symbol ++ s.buf],
        [{ command_name := name, args := args }],
        by simp [enterStep, hnb, hh, ht, hr, hm]⟩
    | false =>
      have hm : ¬(name ∈ cfg.commands) := by simpa using hr
      exact ⟨s.scrollback ++ [cfg.symbol ++ s.buf, "error: Invalid command"], [],
        by simp [enterStep, hnb, hh, ht, hr, hm]⟩

/-- C10: submitting a non-blank line inserts it at history position 1 and
does not reset the live slot: position 0 keeps whatever value it held
(e.g. an edit saved there by an earlier Up navigation); consequently,
pressing Up and then Down right after the submission — the buffer being
empty, so Up saves nothing — sets the buffer to that stale slot-0 value
rather than to the empty string.  (With `history_size = 0` the inserted line
is immediately evicted and Up is inactive, so the claim is stated for
`history_size ≥ 1`.) -/
theorem c10_submission_preserves_live_slot (cfg : ConsoleConfiguration)
    (s : ConsoleState) (h0 : String) (hrest : List String)
    (hh : s.history = h0 :: hrest)
    (hnb : isBlank s.buf = false)
    (hhs : 1 ≤ cfg.history_size) :
    ∃ s1 evs s2 s3,
      enterStep cfg s = some (s1, evs) ∧
      s1.history[0]? = some h0 ∧
      s1.history[1]? = some s.buf ∧
      upStep s1 = some s2 ∧ downStep s2 = some s3 ∧ s3.buf = h0 := by
  obtain ⟨sb, evs, he⟩ := enterStep_nonblank_shape cfg s h0 hrest hh hnb
  set hist2 := if cfg.history_size + 1 < (h0 :: s.buf :: hrest).length
               then (h0 :: s.buf :: hrest).dropLast
               else h0 :: s.buf :: hrest with hh2
  have hfacts : hist2[0]? = some h0 ∧ hist2[1]? = some s.buf ∧ 1 < hist2.length := by
    rw [hh2]
    split
    · next hcond =>
      match hrest, hcond with
      | x :: xs, _ => simp [List.dropLast]
      | [], hcond => simp at hcond; omega
    · simp
  obtain ⟨hget0, hget1, hlen2⟩ := hfacts
  refine ⟨{ s with scrollback := sb, history := hist2, history_index := 0,
                   buf := "" }, evs,
          { s with scrollback := sb, history := hist2, history_index := 1,
                   buf := s.buf },
          { s with scrollback := sb, history := hist2, history_index := 0,
                   buf := h0 },
          he, hget0, hget1, ?_, ?_, rfl⟩
  · rw [upStep]
    rw [if_pos (by constructor <;> (simp; omega))]
    have : isBlank "" = true := by decide
    simp [this, hget1]
  · rw [downStep]
    simp [hget0]

theorem c10_submission_preserves_live_slot_witness :
    ∃ s1 evs s2 s3,
      enterStep { commands := ["log"], history_size := 2, symbol := "$ ",
                  arg_completions := [] }
          { buf := "log 1", scrollback := [], history := ["draft", "old"],
            history_index := 0, completions := [] } = some (s1, evs) ∧
      s1.history[0]? = some ("draft") ∧
      s1.history[1]? = some ("log 1") ∧
      upStep s1 = some s2 ∧ downStep s2 = some s3 ∧ s3.buf = "draft" :=
  c10_submission_preserves_live_slot _ _ ("draft") (["old"]) (by decide)
    (by decide) (by decide)

/-- Typing each line into the buffer and pressing Enter, in order; the
dispatched events are discarded.  `none` propagates a modelled panic. -/
def submitAll (cfg : ConsoleConfiguration) :
    List String → ConsoleState → Option ConsoleState
  | [], s => some s
  | l :: ls, s =>
    match enterStep cfg { s with buf := l } with
    | none => none
    | some (s', _) => submitAll cfg ls s'

theorem enterStep_history_length (cfg : ConsoleConfiguration) (s : ConsoleState)
    (hne : s.history ≠ []) (hbound : s.history.length ≤ cfg.history_size + 1) :
    ∃ s' evs, enterStep cfg s = some (s', evs) ∧
      s'.history ≠ [] ∧
      s'.history.length =
        (if isBlank s.buf then s.history.length
         else min (s.history.length + 1) (cfg.history_size + 1)) := by
  cases hb : isBlank s.buf with
  | true =>
    exact ⟨{ s with scrollback := s.scrollback ++ [""] }, [],
      by simp [enterStep, hb], hne, by simp [hb]⟩
  | false =>
    obtain ⟨h0, hrest, hh⟩ : ∃ a l, s.history = a :: l := by
      rcases hl : s.history with _ | ⟨a, l⟩
      · exact absurd hl hne
      · exact ⟨a, l, rfl⟩
    obtain ⟨sb, evs, he⟩ := enterStep_nonblank_shape cfg s h0 hrest hh hb
    rw [hh] at hbound
    simp only [List.length_cons] at hbound
    refine ⟨_, evs, he, ?_, ?_⟩
    · simp only
      split
      · next hcond =>
        intro hnil
        have : ((h0 :: s.buf :: hrest).dropLast).length = 0 := by rw [hnil]; simp
        simp at this
      · simp
    · simp only [hb, Bool.false_eq_true, if_false, hh]
      split
      · next hcond =>
        simp only [List.length_cons] at hcond ⊢
        simp
        omega
      · next hcond =>
        simp only [List.length_cons] at hcond ⊢
        simp
        omega

theorem submitAll_length (cfg : ConsoleConfiguration) :
    ∀ (lines : List String) (s : ConsoleState),
      s.history ≠ [] → s.history.length ≤ cfg.history_size + 1 →
      ∃ s', submitAll cfg lines s = some s' ∧
        s'.history ≠ [] ∧
        s'.history.length =
          min (s.history.length + (lines.filter (fun l => !isBlank l)).length)
              (cfg.history_size + 1) := by
  intro lines
  induction lines with
  | nil =>
    intro s h1 h2
    exact ⟨s, rfl, h1, by simp; omega⟩
  | cons l ls ih =>
    intro s h1 h2
    obtain ⟨s1, evs, he, hne, hlen⟩ :=
      enterStep_history_length cfg { s with buf := l } (by simpa) (by simpa)
    have hb1 : s1.history.length ≤ cfg.history_size + 1 := by
      rw [hlen]
      split
      · simpa using h2
      · exact Nat.min_le_right _ _
    obtain ⟨s', hs', hne', hlen'⟩ := ih s1 hne hb1
    refine ⟨s', ?_, hne', ?_⟩
    · simp only [submitAll, he]
      exact hs'
    · rw [hlen', hlen]
      cases hbl : isBlank l with
      | true => simp [hbl]
      | false =>
        simp [hbl]
        omega

/-- C4: starting from the initial console state, no sequence of submissions
ever makes the history longer than `history_size + 1` (the oldest entry is
evicted from the back on overflow); and after submitting `history_size + 5`
non-blank lines the history length is exactly `history_size + 1`. -/
theorem c4_history_bound (cfg : ConsoleConfiguration) :
    (∀ lines s', submitAll cfg lines ConsoleState.default = some s' →
       s'.history.length ≤ cfg.history_size + 1) ∧
    (∀ lines s', (∀ l ∈ lines, isBlank l = false) →
       lines.length = cfg.history_size + 5 →
       submitAll cfg lines ConsoleState.default = some s' →
       s'.history.length = cfg.history_size + 1) := by
  have hd1 : (ConsoleState.default).history ≠ [] := by
    simp [ConsoleState.default]
  have hd2 : (ConsoleState.default).history.length ≤ cfg.history_size + 1 := by
    simp [ConsoleState.default]
  constructor
  · intro lines s' hrun
    obtain ⟨s'', hs'', _, hlen⟩ := submitAll_length cfg lines ConsoleState.default hd1 hd2
    rw [hrun] at hs''
    injection hs'' with hs''
    subst hs''
    rw [hlen]
    omega
  · intro lines s' hblank hcount hrun
    obtain ⟨s'', hs'', _, hlen⟩ := submitAll_length cfg lines ConsoleState.default hd1 hd2
    rw [hrun] at hs''
    injection hs'' with hs''
    subst hs''
    have hfe : lines.filter (fun l => !isBlank l) = lines := by
      rw [List.filter_eq_self]
      intro a ha
      simp [hblank a ha]
    rw [hlen, hfe, hcount]
    simp [ConsoleState.default]
    omega

theorem c4_history_bound_witness :
    ∃ s', submitAll { commands := ["log"], history_size := 1, symbol := "$ ",
                      arg_completions := [] }
            ["a", "b", "c", "d", "e", "f"] ConsoleState.default = some s' ∧
          s'.history.length = 1 + 1 :=
  ⟨{ buf := "",
     scrollback := ["$ a", "error: Invalid command", "$ b",
                    "error: Invalid command", "$ c", "error: Invalid command",
                    "$ d", "error: Invalid command", "$ e",
                    "error: Invalid command", "$ f", "error: Invalid command"],
     history := ["", "f"], history_index := 0, completions := [] },
   by decide,
   (c4_history_bound { commands := ["log"], history_size := 1, symbol := "$ ",
                       arg_completions := [] }).2
     (["a", "b", "c", "d", "e", "f"]) _ (by decide) (by decide) (by decide)⟩

/-- The user operations C9 quantifies over: editing the buffer, pressing
Enter, ArrowUp, ArrowDown. -/
inductive ConsoleOp where
  | typeLine (l : String)
  | submit
  | up
  | down
deriving Repr, DecidableEq

/-- One operation applied to the state (dispatched events discarded). -/
def applyOp (cfg : ConsoleConfiguration) :
    ConsoleOp → ConsoleState → Option ConsoleState
  | .typeLine l, s => some { s with buf := l }
  | .submit, s => (enterStep cfg s).map Prod.fst
  | .up, s => upStep s
  | .down, s => downStep s

/-- A sequence of operations applied in order; `none` propagates a modelled
panic. -/
def applyOps (cfg : ConsoleConfiguration) :
    List ConsoleOp → ConsoleState → Option ConsoleState
  | [], s => some s
  | op :: ops, s =>
    match applyOp cfg op s with
    | none => none
    | some s' => applyOps cfg ops s'

theorem applyOp_inv (cfg : ConsoleConfiguration) (op : ConsoleOp)
    (s : ConsoleState) (h1 : s.history ≠ [])
    (h2 : s.history_index < s.history.length) :
    ∃ s', applyOp cfg op s = some s' ∧ s'.history ≠ [] ∧
          s'.history_index < s'.history.length := by
  cases op with
  | typeLine l => exact ⟨{ s with buf := l }, rfl, h1, h2⟩
  | submit =>
    cases hb : isBlank s.buf with
    | true =>
      refine ⟨{ s with scrollback := s.scrollback ++ [""] }, ?_, h1, h2⟩
      simp [applyOp, enterStep, hb]
    | false =>
      obtain ⟨h0, hrest, hh⟩ : ∃ a l, s.history = a :: l := by
        rcases hl : s.history with _ | ⟨a, l⟩
        · exact absurd hl h1
        · exact ⟨a, l, rfl⟩
      obtain ⟨sb, evs, he⟩ := enterStep_nonblank_shape cfg s h0 hrest hh hb
      refine ⟨{ s with buf := "", scrollback := sb,
                       history :=
                         if cfg.history_size + 1 < (h0 :: s.buf :: hrest).length
                         then (h0 :: s.buf :: hrest).dropLast
                         else h0 :: s.buf :: hrest,
                       history_index := 0 }, ?_, ?_, ?_⟩
      · show (enterStep cfg s).map Prod.fst = _
        rw [he]
        rfl
      · simp only
        split
        · intro hnil
          have := congrArg List.length hnil
          simp at this
        · simp
      · simp only
        split
        · simp
        · simp
  | up =>
    show ∃ s', upStep s = some s' ∧ _
    by_cases hg : s.history.length > 1 ∧ s.history_index < s.history.length - 1
    · by_cases hv : s.history_index = 0 ∧ ¬(isBlank s.buf = true)
      · have hlen : (s.history.set 0 s.buf).length = s.history.length :=
          List.length_set s.history 0 s.buf
        have hidx : s.history_index + 1 < (s.history.set 0 s.buf).length := by
          rw [hlen]
          omega
        have hget := List.getElem?_eq_getElem hidx
        refine ⟨{ s with history := s.history.set 0 s.buf,
                         history_index := s.history_index + 1,
                         buf := (s.history.set 0 s.buf).get
                                  ⟨s.history_index + 1, hidx⟩ }, ?_, ?_, ?_⟩
        · simp only [upStep, if_pos hg, if_pos hv]
          rw [hget]
          rfl
        · intro hnil
          have hl0 := congrArg List.length hnil
          rw [hlen] at hl0
          simp only [List.length_nil] at hl0
          omega
        · show s.history_index + 1 < (s.history.set 0 s.buf).length
          rw [hlen]
          omega
      · have hidx : s.history_index + 1 < s.history.length := by omega
        have hget := List.getElem?_eq_getElem hidx
        refine ⟨{ s with history := s.history,
                         history_index := s.history_index + 1,
                         buf := s.history.get ⟨s.history_index + 1, hidx⟩ },
                ?_, ?_, ?_⟩
        · simp only [upStep, if_pos hg, if_neg hv]
          rw [hget]
          rfl
        · exact h1
        · show s.history_index + 1 < s.history.length
          omega
    · exact ⟨s, by rw [upStep, if_neg hg], h1, h2⟩
  | down =>
    show ∃ s', downStep s = some s' ∧ _
    by_cases hg : s.history_index > 0
    · have hidx : s.history_index - 1 < s.history.length := by omega
      have hget := List.getElem?_eq_getElem hidx
      refine ⟨{ s with history_index := s.history_index - 1,
                       buf := s.history.get ⟨s.history_index - 1, hidx⟩ },
              ?_, ?_, ?_⟩
      · simp only [downStep, if_pos hg]
        rw [hget]
        rfl
      · exact h1
      · show s.history_index - 1 < s.history.length
        omega
    · exact ⟨s, by rw [downStep, if_neg hg], h1, h2⟩

/-- C9: starting from the initial console state, after any sequence of
operations (buffer edits, submissions, ArrowUp, ArrowDown) the history is
non-empty and `history_index` lies within `[0, len - 1]`; in particular no
operation in the sequence ever hits a failing history read (`applyOps`
always returns `some`, i.e. the guarded `unwrap`s of the Up/Down handlers
never panic). -/
theorem c9_history_invariant (cfg : ConsoleConfiguration) (ops : List ConsoleOp) :
    ∃ s', applyOps cfg ops ConsoleState.default = some s' ∧
          s'.history ≠ [] ∧ s'.history_index < s'.history.length := by
  suffices h : ∀ (ops : List ConsoleOp) (s : ConsoleState), s.history ≠ [] →
      s.history_index < s.history.length →
      ∃ s', applyOps cfg ops s = some s' ∧ s'.history ≠ [] ∧
            s'.history_index < s'.history.length by
    exact h ops ConsoleState.default (by simp [ConsoleState.default])
      (by simp [ConsoleState.default])
  intro ops
  induction ops with
  | nil =>
    intro s h1 h2
    exact ⟨s, rfl, h1, h2⟩
  | cons op ops ih =>
    intro s h1 h2
    obtain ⟨s1, ha, hb, hc⟩ := applyOp_inv cfg op s h1 h2
    obtain ⟨s', hd, he', hf⟩ := ih s1 hb hc
    refine ⟨s', ?_, he', hf⟩
    simp only [applyOps, ha]
    exact hd
